import Mathlib

/-!
Shallow embedding of `gcopter/include/gcopter/geo_utils.hpp` (namespace
`geo_utils`): interior-point finding, polyhedron overlap testing, vertex
filtering and vertex enumeration for 3-D convex polyhedra described by
half-space systems.

Doubles are modelled by exact rationals.  The external LP solver (`sdlp.hpp`)
and convex-hull library (`quickhull.hpp`) are not under `src/`; following the
specification they are treated as oracles at their interface boundary and
passed as explicit function parameters.  Eigen's `rowwise().norm()` (a real
Euclidean norm, irrational over ℚ) is likewise passed as an explicit
`norm3` parameter.  Division by zero follows Lean's total-division
convention `x / 0 = 0`.
-/

/-- A 3-D point / vector (`Eigen::Vector3d`). -/
structure Pt where
  x : ℚ
  y : ℚ
  z : ℚ
deriving DecidableEq, Repr

/-- One half-space row `(h0,h1,h2,h3)` of an `Eigen::MatrixX4d` `hPoly`,
meaning `h0*x + h1*y + h2*z + h3 <= 0`. -/
structure HalfSpace where
  a : ℚ
  b : ℚ
  c : ℚ
  d : ℚ
deriving DecidableEq, Repr

/-- A 4-vector (`Eigen::Vector4d`), the LP variable `(x, y, z, w)` or an LP
constraint row. -/
structure Vec4 where
  x : ℚ
  y : ℚ
  z : ℚ
  w : ℚ
deriving DecidableEq, Repr

/-- The value returned by `sdlp::linprog`: a finite double, or an infinity
(`std::isinf`) signalling an infeasible or unbounded LP. -/
inductive Dbl where
  | finite (q : ℚ)
  | posInf
  | negInf
deriving DecidableEq, Repr

/-- Comparison `v < t` on the sdlp return value, as the C++ comparison `minmaxsd < t`
evaluates on doubles (an infinity compares normally). -/
def Dbl.ltv (v : Dbl) (t : ℚ) : Bool :=
  match v with
  | .finite q => decide (q < t)
  | .posInf => false
  | .negInf => true

/-- The test `std::isinf` on the sdlp return value. -/
def Dbl.isInfinite (v : Dbl) : Bool :=
  match v with
  | .finite _ => false
  | .posInf => true
  | .negInf => true

/-- Modelled from the spec: the LP oracle `sdlp::linprog<4>` (file `sdlp.hpp`,
not under `src/`).  Given the objective coefficients `c`, the constraint rows
`A` and right-hand sides `b` of `minimize cᵀx subject to Ax ≤ b`, it returns
the optimal objective value (an infinity when infeasible or unbounded) and
the optimal point `x`.  Kept abstract: theorems quantify over it, adding the
interface properties the spec states as hypotheses where needed. -/
def LPOracle : Type :=
  Vec4 → List Vec4 → List ℚ → Dbl × Vec4

/-- The projection `x.head<3>()`. -/
def Vec4.head3 (v : Vec4) : Pt :=
  ⟨v.x, v.y, v.z⟩

/-- The objective vector `c` built by `findInterior` and `overlap`:
`c.setZero(); c(3) = -1.0` — maximize the uniform shift `w`. -/
def lpCost : Vec4 :=
  ⟨0, 0, 0, -1⟩

/-- The normalized constraint rows of `findInterior`:
`A.leftCols<3>() = hPoly.leftCols<3>().array().colwise() / hNorm` and
`A.rightCols<1>().setConstant(1.0)`, where `hNorm` is the Euclidean norm of
each row's normal, supplied by `norm3`.  At a zero-length normal the C++
IEEE division produces NaN coefficients while this model's total division
yields `0`; no theorem in this file rests on the value at such a row. -/
def buildLPRows (norm3 : ℚ → ℚ → ℚ → ℚ) (hPoly : List HalfSpace) : List Vec4 :=
  hPoly.map (fun h =>
    let n := norm3 h.a h.b h.c
    ⟨h.a / n, h.b / n, h.c / n, 1⟩)

/-- The normalized right-hand side of `findInterior`:
`b = -hPoly.rightCols<1>().array() / hNorm`.  At a zero-length normal the
C++ IEEE division produces an infinite or NaN entry while this model's
total division yields `0`; no theorem in this file rests on the value at
such a row. -/
def buildLPRhs (norm3 : ℚ → ℚ → ℚ → ℚ) (hPoly : List HalfSpace) : List ℚ :=
  hPoly.map (fun h => -h.d / norm3 h.a h.b h.c)

/-- Source `geo_utils::findInterior`: normalize the rows of `hPoly`, solve
`max w` subject to `[n̂ᵢ, 1]·[x,y,z,w] ≤ -dᵢ/‖nᵢ‖` through the LP oracle, and
succeed iff `minmaxsd < 0.0 && !std::isinf(minmaxsd)`.  Returns the boolean
result together with the output parameter `interior = x.head<3>()`, which the
source assigns unconditionally. -/
def findInterior (norm3 : ℚ → ℚ → ℚ → ℚ) (lp : LPOracle)
    (hPoly : List HalfSpace) : Bool × Pt :=
  let r := lp lpCost (buildLPRows norm3 hPoly) (buildLPRhs norm3 hPoly)
  (r.1.ltv 0 && !r.1.isInfinite, r.2.head3)

/-- An unnormalized LP constraint row of `overlap`: the row's normal with the
shift coefficient `1` appended (`A.rightCols<1>().setConstant(1.0)`). -/
def shiftRow (h : HalfSpace) : Vec4 :=
  ⟨h.a, h.b, h.c, 1⟩

/-- The right-hand side entry of `overlap`: `b = -hPoly.rightCols<1>()`. -/
def negOffset (h : HalfSpace) : ℚ :=
  -h.d

/-- Source `geo_utils::overlap`: stack the rows of the two half-space systems
unchanged (`topRows(m)` from `hPoly0`, `bottomRows(n)` from `hPoly1`), run the
same maximize-uniform-shift LP, and succeed iff
`minmaxsd < -eps && !std::isinf(minmaxsd)`. -/
def overlap (lp : LPOracle) (hPoly0 hPoly1 : List HalfSpace) (eps : ℚ) : Bool :=
  let A := hPoly0.map shiftRow ++ hPoly1.map shiftRow
  let b := hPoly0.map negOffset ++ hPoly1.map negOffset
  let r := lp lpCost A b
  r.1.ltv (-eps) && !r.1.isInfinite

/-- Source `geo_utils::filterLess`: the strict lexicographic comparator handed to
`std::set<Eigen::Vector3d, filterLess>`. -/
def filterLess (l r : Pt) : Bool :=
  decide (l.x < r.x) ||
    (decide (l.x = r.x) &&
      (decide (l.y < r.y) ||
        (decide (l.y = r.y) &&
          decide (l.z < r.z))))

/-- The `std::set` equivalence under the `filterLess` comparator: neither element
precedes the other, the condition under which `filter.find(quanti)` hits. -/
def setEquiv (l r : Pt) : Bool :=
  !filterLess l r && !filterLess r l

/-- Constant `DBL_EPSILON`, the double-precision machine epsilon `2⁻⁵²`. -/
def dblEpsilon : ℚ :=
  1 / 2 ^ 52

/-- Rounding `std::round` / Eigen `.array().round()`: round half away from zero
(Mathlib's `round` rounds half up, so negatives are negated first). -/
def roundHalfAway (q : ℚ) : ℤ :=
  if q < 0 then -round (-q) else round q

/-- Source `quanti = (rV.col(i) / res).array().round()`: the quantized integer key
of a point at resolution `res`. -/
def quantize (res : ℚ) (p : Pt) : Pt :=
  ⟨(roundHalfAway (p.x / res) : ℤ), (roundHalfAway (p.y / res) : ℤ),
    (roundHalfAway (p.z / res) : ℤ)⟩

/-- All coordinates of a point cloud in column order (the entries of the
`Eigen::Matrix3Xd`). -/
def coordList (l : List Pt) : List ℚ :=
  l.foldr (fun p acc => p.x :: p.y :: p.z :: acc) []

/-- Eigen `rV.maxCoeff()` (0 on the empty matrix, which Eigen forbids). -/
def maxCoeff (l : List Pt) : ℚ :=
  match coordList l with
  | [] => 0
  | q :: qs => qs.foldl max q

/-- Eigen `rV.minCoeff()` (0 on the empty matrix, which Eigen forbids). -/
def minCoeff (l : List Pt) : ℚ :=
  match coordList l with
  | [] => 0
  | q :: qs => qs.foldl min q

/-- The loop body of `filterVs`: keep a point when its quantized key has no
`filterLess`-equivalent member in the `filter` set, then insert the key. -/
def filterLoop (res : ℚ) (seen : List Pt) : List Pt → List Pt
  | [] => []
  | p :: rest =>
    let q := quantize res p
    if seen.any (fun k => setEquiv k q) then
      filterLoop res seen rest
    else
      p :: filterLoop res (q :: seen) rest

/-- Source `geo_utils::filterVs`: `mag = max(|rV.maxCoeff()|, |rV.minCoeff()|)`,
`res = mag * max(|epsilon|/mag, DBL_EPSILON)`, then keep the first point of
each quantization cell in input order. -/
def filterVs (rV : List Pt) (epsilon : ℚ) : List Pt :=
  let mag := max |maxCoeff rV| |minCoeff rV|
  let res := mag * max (|epsilon| / mag) dblEpsilon
  filterLoop res [] rV

/-- Modelled from the spec: the convex-hull oracle
`quickhull::QuickHull<double>::getConvexHull` (file `quickhull.hpp`, not under
`src/`), called with `CCW = false` and `useOriginalIndices = true`.  Given the
dual point cloud and the merge tolerance it returns the triangulated hull's
flat index buffer (one vertex-index triple per facet, referencing columns of
the input).  Kept abstract: theorems quantify over it. -/
def HullOracle : Type :=
  List Pt → ℚ → List ℕ

/-- Pointwise vector difference. -/
def Pt.sub (p q : Pt) : Pt :=
  ⟨p.x - q.x, p.y - q.y, p.z - q.z⟩

/-- Pointwise vector sum (`vPoly.array().colwise() + inner.array()`). -/
def Pt.add (p q : Pt) : Pt :=
  ⟨p.x + q.x, p.y + q.y, p.z + q.z⟩

/-- The product `Eigen::Vector3d::cross`. -/
def Pt.cross (p q : Pt) : Pt :=
  ⟨p.y * q.z - p.z * q.y, p.z * q.x - p.x * q.z, p.x * q.y - p.y * q.x⟩

/-- The product `Eigen::Vector3d::dot`. -/
def Pt.dot (p q : Pt) : ℚ :=
  p.x * q.x + p.y * q.y + p.z * q.z

/-- Division of a vector by a scalar. -/
def Pt.divs (p : Pt) (s : ℚ) : Pt :=
  ⟨p.x / s, p.y / s, p.z / s⟩

/-- The zero point, the value an out-of-range Eigen column read is totalized
to in this model. -/
def Pt.zero : Pt :=
  ⟨0, 0, 0⟩

/-- Source `geo_utils::enumerateVs` (interior-point-supplied overload): translate by
`inner`, map each row to its polar-dual point `nᵢ / (-dᵢ - nᵢ·inner)`, take
the convex hull of the dual cloud at tolerance `min epsilon defaultEps`, turn
every triangular facet `(p0,p1,p2)` of the index buffer into the primal
vertex `((p1-p0) × (p2-p1)) / (((p1-p0) × (p2-p1)) · p1)`, filter with
`filterVs`, and translate back by adding `inner`. -/
def enumerateVs (hull : HullOracle) (defaultEps : ℚ) (hPoly : List HalfSpace)
    (inner : Pt) (epsilon : ℚ) : List Pt :=
  let A : List Pt := hPoly.map (fun h =>
    let bi := -h.d - (h.a * inner.x + h.b * inner.y + h.c * inner.z)
    Pt.divs ⟨h.a, h.b, h.c⟩ bi)
  let qhullEps := min epsilon defaultEps
  let idBuffer := hull A qhullEps
  let hNum := idBuffer.length / 3
  let rV := (List.range hNum).map (fun i =>
    let point := A.getD (idBuffer.getD (3 * i + 1) 0) Pt.zero
    let edge0 := point.sub (A.getD (idBuffer.getD (3 * i) 0) Pt.zero)
    let edge1 := (A.getD (idBuffer.getD (3 * i + 2) 0) Pt.zero).sub point
    let normal := edge0.cross edge1
    normal.divs (normal.dot point))
  let vPoly := filterVs rV epsilon
  vPoly.map (fun p => p.add inner)

/-- Source `geo_utils::enumerateVs` (auto overload): run `findInterior`; on success
enumerate with the computed interior point, on failure produce no vertices
(`none` models `return false` with the output parameter untouched). -/
def enumerateVsAuto (norm3 : ℚ → ℚ → ℚ → ℚ) (lp : LPOracle)
    (hull : HullOracle) (defaultEps : ℚ) (hPoly : List HalfSpace)
    (epsilon : ℚ) : Option (List Pt) :=
  let r := findInterior norm3 lp hPoly
  if r.1 then some (enumerateVs hull defaultEps hPoly r.2 epsilon) else none

/-! ### Specification-side definitions

The following definitions are written from the words of the specification
(not from the source) and are compared against the source-shaped definitions
above in the refinement theorems. -/

/-- Spec step 2: the polar-dual point of row `i`,
`nᵢ / (-dᵢ - nᵢ·inner)`. -/
def dualPoint (inner : Pt) (h : HalfSpace) : Pt :=
  Pt.divs ⟨h.a, h.b, h.c⟩ (-h.d - Pt.dot ⟨h.a, h.b, h.c⟩ inner)

/-- The dual point cloud: one dual point per half-space row, in row order. -/
def dualCloud (hPoly : List HalfSpace) (inner : Pt) : List Pt :=
  hPoly.map (dualPoint inner)

/-- Spec step 4: the primal vertex of a triangular dual facet `(p0,p1,p2)`,
`((p1-p0) × (p2-p1)) / (((p1-p0) × (p2-p1)) · p1)`. -/
def primalVertex (p0 p1 p2 : Pt) : Pt :=
  let normal := (p1.sub p0).cross (p2.sub p1)
  normal.divs (normal.dot p1)

/-- Consume an index buffer three entries at a time, in emitted order,
applying `g` to each index triple; a trailing chunk of fewer than three
entries is dropped. -/
def chunk3Map {α : Type} (g : ℕ → ℕ → ℕ → α) : List ℕ → List α
  | i :: j :: k :: rest => g i j k :: chunk3Map g rest
  | _ => []

/-- The per-facet primal vertices of a dual hull given by its flat index
buffer, in emitted facet order. -/
def facetVertices (pts : List Pt) (idBuffer : List ℕ) : List Pt :=
  chunk3Map (fun i j k =>
    primalVertex (pts.getD i Pt.zero) (pts.getD j Pt.zero) (pts.getD k Pt.zero))
    idBuffer

/-- Spec-side deduplication: keep the first point encountered for each new
key (key membership is plain equality), drop every later point whose key was
already seen. -/
def dedupFirstByKey (key : Pt → Pt) (seen : List Pt) : List Pt → List Pt
  | [] => []
  | p :: rest =>
    if key p ∈ seen then
      dedupFirstByKey key seen rest
    else
      p :: dedupFirstByKey key (key p :: seen) rest

/-- Spec-side magnitude: the largest absolute coordinate over the whole
cloud. -/
def magSpec (rV : List Pt) : ℚ :=
  (coordList rV).foldl (fun m q => max m |q|) 0

/-- Spec-side resolution: `res = mag * max(|eps|/mag, DBL_EPSILON)`. -/
def resSpec (rV : List Pt) (epsilon : ℚ) : ℚ :=
  magSpec rV * max (|epsilon| / magSpec rV) dblEpsilon

/-- The vertex filter as the specification words it: quantize each point at
the cloud-relative resolution and keep, in input order, exactly the first
point of each distinct key. -/
def filterVsSpec (rV : List Pt) (epsilon : ℚ) : List Pt :=
  dedupFirstByKey (quantize (resSpec rV epsilon)) [] rV

/-- Modelled from the spec: the LP oracle returns "the optimal objective
value" of `minimize cᵀx subject to Ax ≤ b`, which depends only on the set of
constraints; hence the reported objective is invariant under permuting the
constraint rows (paired with their right-hand sides). -/
def ObjPermInvariant (lp : LPOracle) : Prop :=
  ∀ c A b A2 b2, List.Perm (A.zip b) (A2.zip b2) →
    (lp c A b).1 = (lp c A2 b2).1

/-! ### Concrete instances used by witnesses -/

/-- The constant norm function `1` (the Euclidean norm of a unit normal). -/
def unitNorm : ℚ → ℚ → ℚ → ℚ :=
  fun _ _ _ => 1

/-- A concrete LP oracle reporting the finite optimum `-1` at `(0,0,0,1)`. -/
def constLpNeg : LPOracle :=
  fun _ _ _ => (Dbl.finite (-1), ⟨0, 0, 0, 1⟩)

/-- The quantization resolution `filterVs` computes for a cloud:
`mag * max(|epsilon|/mag, DBL_EPSILON)` with
`mag = max(|rV.maxCoeff()|, |rV.minCoeff()|)`. -/
def resOf (rV : List Pt) (epsilon : ℚ) : ℚ :=
  let mag := max |maxCoeff rV| |minCoeff rV|
  mag * max (|epsilon| / mag) dblEpsilon

/-! ### Theorems -/

/-- C2: for every half-space system with `m ≥ 1` rows, `findInterior`
returns true if and only if the LP oracle's objective value for the
row-normalized maximize-uniform-shift LP is finite and strictly negative;
it returns false when the optimum is non-negative or non-finite. -/
theorem findInterior_success_iff (norm3 : ℚ → ℚ → ℚ → ℚ) (lp : LPOracle)
    (hPoly : List HalfSpace) (hm : 1 ≤ hPoly.length) :
    (findInterior norm3 lp hPoly).1 = true ↔
      ∃ q, (lp lpCost (buildLPRows norm3 hPoly) (buildLPRhs norm3 hPoly)).1 =
          Dbl.finite q ∧ q < 0 := by
  simp only [findInterior]
  cases hr : (lp lpCost (buildLPRows norm3 hPoly) (buildLPRhs norm3 hPoly)).1 <;>
    simp [hr, Dbl.ltv, Dbl.isInfinite]

/-- Witness for C2 at a concrete one-row system and a concrete oracle. -/
theorem findInterior_success_iff_witness :
    1 ≤ ([(⟨1, 0, 0, -1⟩ : HalfSpace)]).length ∧
      ((findInterior unitNorm constLpNeg [⟨1, 0, 0, -1⟩]).1 = true ↔
        ∃ q, (constLpNeg lpCost (buildLPRows unitNorm [⟨1, 0, 0, -1⟩])
            (buildLPRhs unitNorm [⟨1, 0, 0, -1⟩])).1 = Dbl.finite q ∧ q < 0) :=
  ⟨by decide, findInterior_success_iff unitNorm constLpNeg _ (by decide)⟩

/-- C3: `overlap` stacks the rows of the two systems unchanged (A's rows
followed by B's rows, no normalization), runs the maximize-uniform-shift LP
with objective coefficient `-1` on the shift variable (`lpCost`), and
returns true iff the optimal objective is finite and strictly below
`-eps`. -/
theorem overlap_stacked_iff (lp : LPOracle) (hPoly0 hPoly1 : List HalfSpace)
    (eps : ℚ) :
    overlap lp hPoly0 hPoly1 eps = true ↔
      ∃ q, (lp lpCost ((hPoly0 ++ hPoly1).map shiftRow)
          ((hPoly0 ++ hPoly1).map negOffset)).1 = Dbl.finite q ∧ q < -eps := by
  simp only [overlap, List.map_append]
  cases hr : (lp lpCost (hPoly0.map shiftRow ++ hPoly1.map shiftRow)
      (hPoly0.map negOffset ++ hPoly1.map negOffset)).1 <;>
    simp [hr, Dbl.ltv, Dbl.isInfinite]

/-- C5: the auto overload of `enumerateVs` fails (produces no vertices)
exactly when `findInterior` fails, and on success its output is that of the
interior-point-supplied overload called with the interior point that
`findInterior` computed. -/
theorem enumerateVsAuto_characterization (norm3 : ℚ → ℚ → ℚ → ℚ)
    (lp : LPOracle) (hull : HullOracle) (defaultEps : ℚ)
    (hPoly : List HalfSpace) (epsilon : ℚ) :
    (enumerateVsAuto norm3 lp hull defaultEps hPoly epsilon = none ↔
      (findInterior norm3 lp hPoly).1 = false) ∧
      enumerateVsAuto norm3 lp hull defaultEps hPoly epsilon =
        (if (findInterior norm3 lp hPoly).1 then
          some (enumerateVs hull defaultEps hPoly
            (findInterior norm3 lp hPoly).2 epsilon)
        else none) := by
  simp only [enumerateVsAuto]
  cases h : (findInterior norm3 lp hPoly).1 <;> simp [h]

/-- C10: `findInterior` unconditionally overwrites its output parameter with
`x.head<3>()` from the LP oracle's returned point — the equation holds with
no condition on the boolean result. -/
theorem findInterior_overwrites_interior (norm3 : ℚ → ℚ → ℚ → ℚ)
    (lp : LPOracle) (hPoly : List HalfSpace) :
    (findInterior norm3 lp hPoly).2 =
      (lp lpCost (buildLPRows norm3 hPoly) (buildLPRhs norm3 hPoly)).2.head3 :=
  rfl

/-- C6: `overlap` is symmetric in its two half-space systems whenever the LP
oracle reports the same objective value on row-permuted constraint systems
(the spec: the oracle returns the optimal value of the LP, which depends only
on the constraint set). -/
theorem overlap_comm (lp : LPOracle) (hinv : ObjPermInvariant lp)
    (hPoly0 hPoly1 : List HalfSpace) (eps : ℚ) :
    overlap lp hPoly0 hPoly1 eps = overlap lp hPoly1 hPoly0 eps := by
  simp only [overlap]
  have hobj := hinv lpCost
    (hPoly0.map shiftRow ++ hPoly1.map shiftRow)
    (hPoly0.map negOffset ++ hPoly1.map negOffset)
    (hPoly1.map shiftRow ++ hPoly0.map shiftRow)
    (hPoly1.map negOffset ++ hPoly0.map negOffset)
    (by
      rw [List.zip_append (by simp), List.zip_append (by simp)]
      exact List.perm_append_comm)
  rw [hobj]

/-- Witness for C6 at a concrete permutation-invariant oracle and concrete
systems. -/
theorem overlap_comm_witness :
    ObjPermInvariant constLpNeg ∧
      overlap constLpNeg [⟨1, 0, 0, 0⟩] [⟨0, 1, 0, 0⟩] (1 / 1000000) =
        overlap constLpNeg [⟨0, 1, 0, 0⟩] [⟨1, 0, 0, 0⟩] (1 / 1000000) :=
  ⟨fun _ _ _ _ _ _ => rfl,
    overlap_comm constLpNeg (fun _ _ _ _ _ _ => rfl) _ _ _⟩

/-- The comparator `filterLess` decides strict lexicographic order on the three axes. -/
theorem filterLess_true_iff (l r : Pt) :
    filterLess l r = true ↔
      l.x < r.x ∨ (l.x = r.x ∧ (l.y < r.y ∨ (l.y = r.y ∧ l.z < r.z))) := by
  simp [filterLess]

/-- The `std::set` equivalence under `filterLess` is plain equality: the
comparator is a strict total order on coordinate triples. -/
theorem setEquiv_true_iff (l r : Pt) : setEquiv l r = true ↔ l = r := by
  constructor
  · intro h
    have h2 : ¬(filterLess l r = true) ∧ ¬(filterLess r l = true) := by
      constructor <;> intro hc <;> simp [setEquiv, hc] at h
    obtain ⟨h1, h2⟩ := h2
    rw [filterLess_true_iff] at h1 h2
    push_neg at h1 h2
    have hx : l.x = r.x := le_antisymm h2.1 h1.1
    have hy : l.y = r.y := le_antisymm (h2.2 hx.symm).1 (h1.2 hx).1
    have hz : l.z = r.z :=
      le_antisymm ((h2.2 hx.symm).2 hy.symm) ((h1.2 hx).2 hy)
    cases l
    cases r
    simp only [Pt.mk.injEq]
    exact ⟨hx, hy, hz⟩
  · rintro rfl
    simp [setEquiv, filterLess]

/-- The `filter.find` hit test: some member of the seen-key set is
`filterLess`-equivalent to `q` exactly when `q` is a member. -/
theorem any_setEquiv_iff (seen : List Pt) (q : Pt) :
    (seen.any fun k => setEquiv k q) = true ↔ q ∈ seen := by
  rw [List.any_eq_true]
  constructor
  · rintro ⟨k, hk, hkq⟩
    rw [setEquiv_true_iff] at hkq
    rw [← hkq]
    exact hk
  · intro h
    exact ⟨q, h, (setEquiv_true_iff q q).mpr rfl⟩

/-- The source's set-based filtering loop equals first-per-key
deduplication with plain key equality. -/
theorem filterLoop_eq_dedup (res : ℚ) (l : List Pt) :
    ∀ seen : List Pt,
      filterLoop res seen l = dedupFirstByKey (quantize res) seen l := by
  induction l with
  | nil => intro seen; rfl
  | cons p rest ih =>
    intro seen
    simp only [filterLoop, dedupFirstByKey]
    by_cases hq : quantize res p ∈ seen
    · rw [if_pos ((any_setEquiv_iff seen (quantize res p)).mpr hq), if_pos hq]
      exact ih seen
    · rw [if_neg (fun hc => hq ((any_setEquiv_iff seen (quantize res p)).mp hc)),
        if_neg hq, ih (quantize res p :: seen)]

/-- Accumulator identity behind the magnitude computation:
for `a ≤ b`, the larger of `|min a q|` and `|max b q|` is the larger of
`max |a| |b|` and `|q|`. -/
theorem max_abs_minmax (a b q : ℚ) (hab : a ≤ b) :
    max |min a q| |max b q| = max (max |a| |b|) |q| := by
  apply le_antisymm
  · apply max_le
    · rcases min_cases a q with ⟨h1, _⟩ | ⟨h1, _⟩
      · rw [h1]
        exact le_trans (le_max_left _ _) (le_max_left _ _)
      · rw [h1]
        exact le_max_right _ _
    · rcases max_cases b q with ⟨h1, _⟩ | ⟨h1, _⟩
      · rw [h1]
        exact le_trans (le_max_right _ _) (le_max_left _ _)
      · rw [h1]
        exact le_max_right _ _
  · apply max_le
    · apply max_le
      · rcases le_or_lt 0 a with h0 | h0
        · have hbq : a ≤ max b q := le_trans hab (le_max_left _ _)
          have hle : |a| ≤ |max b q| := by
            rw [abs_of_nonneg h0, abs_of_nonneg (le_trans h0 hbq)]
            exact hbq
          exact le_trans hle (le_max_right _ _)
        · have hma : min a q ≤ a := min_le_left _ _
          have hle : |a| ≤ |min a q| := by
            rw [abs_of_neg h0, abs_of_neg (lt_of_le_of_lt hma h0)]
            linarith
          exact le_trans hle (le_max_left _ _)
      · rcases le_or_lt 0 b with h0 | h0
        · have hle : |b| ≤ |max b q| := by
            rw [abs_of_nonneg h0,
              abs_of_nonneg (le_trans h0 (le_max_left b q))]
            exact le_max_left _ _
          exact le_trans hle (le_max_right _ _)
        · have hma : min a q ≤ a := min_le_left _ _
          have hle : |b| ≤ |min a q| := by
            rw [abs_of_neg h0,
              abs_of_neg (lt_of_le_of_lt hma (lt_of_le_of_lt hab h0))]
            linarith
          exact le_trans hle (le_max_left _ _)
    · rcases le_or_lt 0 q with h0 | h0
      · have hle : |q| ≤ |max b q| := by
          rw [abs_of_nonneg h0, abs_of_nonneg (le_trans h0 (le_max_right b q))]
          exact le_max_right _ _
        exact le_trans hle (le_max_right _ _)
      · have hle : |q| ≤ |min a q| := by
          rw [abs_of_neg h0, abs_of_neg (lt_of_le_of_lt (min_le_right a q) h0)]
          have := min_le_right a q
          linarith
        exact le_trans hle (le_max_left _ _)

/-- Folding `max` and `min` separately and combining absolute values equals
folding the running largest absolute value. -/
theorem fold_minmax_abs (cs : List ℚ) :
    ∀ a b : ℚ, a ≤ b →
      max |cs.foldl max b| |cs.foldl min a| =
        cs.foldl (fun m q => max m |q|) (max |a| |b|) := by
  induction cs with
  | nil =>
    intro a b _
    simp [max_comm]
  | cons c cs ih =>
    intro a b hab
    simp only [List.foldl_cons]
    rw [ih (min a c) (max b c)
      (le_trans (le_trans (min_le_left a c) hab) (le_max_left b c)),
      max_abs_minmax a b c hab]

/-- For a non-empty cloud, the source's
`max(|rV.maxCoeff()|, |rV.minCoeff()|)` is the largest absolute coordinate
over the whole cloud. -/
theorem mag_eq_magSpec (rV : List Pt) (hne : rV ≠ []) :
    max |maxCoeff rV| |minCoeff rV| = magSpec rV := by
  obtain ⟨c, cs, hcc⟩ : ∃ c cs, coordList rV = c :: cs := by
    cases rV with
    | nil => exact absurd rfl hne
    | cons p l => exact ⟨p.x, p.y :: p.z :: coordList l, rfl⟩
  simp only [maxCoeff, minCoeff, magSpec, hcc]
  rw [List.foldl_cons,
    show max (0 : ℚ) |c| = |c| from max_eq_right (abs_nonneg c)]
  have h := fold_minmax_abs cs c c le_rfl
  rw [show max |c| |c| = |c| from max_self _] at h
  exact h

/-- C4: for a non-empty cloud and positive eps, `filterVs` computes the
resolution from the cloud's largest absolute coordinate exactly as the spec
words it and keeps, in input order, the first point of each distinct
quantized key, dropping later points with an already-seen key. -/
theorem filterVs_refines_spec (rV : List Pt) (epsilon : ℚ) (hne : rV ≠ [])
    (heps : 0 < epsilon) :
    filterVs rV epsilon = filterVsSpec rV epsilon := by
  simp only [filterVs, filterVsSpec, resSpec]
  rw [mag_eq_magSpec rV hne]
  exact filterLoop_eq_dedup _ rV []

/-- Witness for C4 at a concrete two-point cloud. -/
theorem filterVs_refines_spec_witness :
    ([(⟨0, 0, 0⟩ : Pt), ⟨1, 2, 3⟩] ≠ []) ∧ (0 : ℚ) < 1 ∧
      filterVs [⟨0, 0, 0⟩, ⟨1, 2, 3⟩] 1 = filterVsSpec [⟨0, 0, 0⟩, ⟨1, 2, 3⟩] 1 :=
  ⟨by decide, by decide,
    filterVs_refines_spec _ _ (by decide) (by decide)⟩

/-- Folding `max` over a list of zeros from `0` stays `0`. -/
theorem foldl_max_zeros (cs : List ℚ) (h : ∀ q ∈ cs, q = 0) :
    cs.foldl max 0 = 0 := by
  induction cs with
  | nil => rfl
  | cons c cs ih =>
    have hc : c = 0 := h c (by simp)
    simp only [List.foldl_cons, hc, max_self]
    exact ih (fun q hq => h q (by simp [hq]))

/-- Folding `min` over a list of zeros from `0` stays `0`. -/
theorem foldl_min_zeros (cs : List ℚ) (h : ∀ q ∈ cs, q = 0) :
    cs.foldl min 0 = 0 := by
  induction cs with
  | nil => rfl
  | cons c cs ih =>
    have hc : c = 0 := h c (by simp)
    simp only [List.foldl_cons, hc, min_self]
    exact ih (fun q hq => h q (by simp [hq]))

/-- Every coordinate of an all-zero cloud is zero. -/
theorem coordList_zeros (l : List Pt) (h : ∀ p ∈ l, p = Pt.zero) :
    ∀ q ∈ coordList l, q = 0 := by
  induction l with
  | nil => intro q hq; simp [coordList] at hq
  | cons p t ih =>
    intro q hq
    have hp : p = Pt.zero := h p (by simp)
    have hq2 : q ∈ p.x :: p.y :: p.z :: coordList t := hq
    simp only [List.mem_cons] at hq2
    rcases hq2 with rfl | rfl | rfl | hmem
    · rw [hp]; rfl
    · rw [hp]; rfl
    · rw [hp]; rfl
    · exact ih (fun r hr => h r (by simp [hr])) q hmem

/-- Value of `maxCoeff` of an all-zero cloud is `0`. -/
theorem maxCoeff_zeros (l : List Pt) (h : ∀ p ∈ l, p = Pt.zero) :
    maxCoeff l = 0 := by
  have hall := coordList_zeros l h
  unfold maxCoeff
  cases hc : coordList l with
  | nil => rfl
  | cons c cs =>
    rw [hc] at hall
    have hc0 : c = 0 := hall c (by simp)
    rw [hc0]
    exact foldl_max_zeros cs (fun q hq => hall q (by simp [hq]))

/-- Value of `minCoeff` of an all-zero cloud is `0`. -/
theorem minCoeff_zeros (l : List Pt) (h : ∀ p ∈ l, p = Pt.zero) :
    minCoeff l = 0 := by
  have hall := coordList_zeros l h
  unfold minCoeff
  cases hc : coordList l with
  | nil => rfl
  | cons c cs =>
    rw [hc] at hall
    have hc0 : c = 0 := hall c (by simp)
    rw [hc0]
    exact foldl_min_zeros cs (fun q hq => hall q (by simp [hq]))

/-- The filtering loop drops every point whose key is already seen. -/
theorem filterLoop_drop_all (res : ℚ) (seen : List Pt) (l : List Pt)
    (h : ∀ p ∈ l, quantize res p ∈ seen) :
    filterLoop res seen l = [] := by
  induction l with
  | nil => rfl
  | cons p rest ih =>
    simp only [filterLoop]
    rw [if_pos ((any_setEquiv_iff seen (quantize res p)).mpr (h p (by simp)))]
    exact ih (fun p2 hp2 => h p2 (by simp [hp2]))

/-- C8: on a non-empty all-zero cloud (`mag = 0`), `filterVs` is well
defined — division is total in this model, with `x / 0 = 0`, so the
resolution computation cannot fault — and the degenerate all-identical input
collapses to the single point `(0,0,0)`. -/
theorem filterVs_all_zero (rV : List Pt) (epsilon : ℚ) (hne : rV ≠ [])
    (hz : ∀ p ∈ rV, p = Pt.zero) :
    filterVs rV epsilon = [Pt.zero] := by
  cases rV with
  | nil => exact absurd rfl hne
  | cons p rest =>
    have hp : p = Pt.zero := hz p (by simp)
    subst hp
    have hres : max |maxCoeff (Pt.zero :: rest)| |minCoeff (Pt.zero :: rest)| *
        max (|epsilon| / max |maxCoeff (Pt.zero :: rest)|
          |minCoeff (Pt.zero :: rest)|) dblEpsilon = 0 := by
      rw [maxCoeff_zeros _ hz, minCoeff_zeros _ hz]
      simp
    simp only [filterVs]
    rw [hres]
    simp only [filterLoop, List.any_nil, Bool.false_eq_true, if_false]
    rw [filterLoop_drop_all 0 _ rest ?_]
    · intro p2 hp2
      rw [hz p2 (by simp [hp2])]
      exact List.mem_singleton.mpr rfl

/-- Witness for C8 at a concrete all-zero cloud. -/
theorem filterVs_all_zero_witness :
    ([(⟨0, 0, 0⟩ : Pt), ⟨0, 0, 0⟩] ≠ []) ∧
      (∀ p ∈ [(⟨0, 0, 0⟩ : Pt), ⟨0, 0, 0⟩], p = Pt.zero) ∧
      filterVs [⟨0, 0, 0⟩, ⟨0, 0, 0⟩] 1 = [Pt.zero] :=
  ⟨by decide, by decide, filterVs_all_zero _ 1 (by decide) (by decide)⟩

/-- The filtering loop keeps every point when the incoming keys are pairwise
distinct and none is already seen. -/
theorem filterLoop_keeps_all (res : ℚ) (l : List Pt) :
    ∀ seen : List Pt, (∀ p ∈ l, quantize res p ∉ seen) →
      (l.map (quantize res)).Nodup → filterLoop res seen l = l := by
  induction l with
  | nil => intro seen _ _; rfl
  | cons p rest ih =>
    intro seen hseen hnd
    simp only [List.map_cons, List.nodup_cons] at hnd
    simp only [filterLoop]
    rw [if_neg (fun hc =>
      hseen p (by simp) ((any_setEquiv_iff seen (quantize res p)).mp hc))]
    rw [ih (quantize res p :: seen) ?_ hnd.2]
    intro p2 hp2
    simp only [List.mem_cons, not_or]
    constructor
    · intro he
      exact hnd.1 (he ▸ List.mem_map_of_mem (quantize res) hp2)
    · exact hseen p2 (by simp [hp2])

/-- C9: `filterVs` is idempotent in the claim's sense: a cloud whose points
already have pairwise-distinct quantized keys (at the resolution `filterVs`
itself computes) passes through unchanged, same points in the same order;
and a cloud of `k ≥ 1` exact copies of one point collapses to exactly one
representative. -/
theorem filterVs_dedup_properties :
    (∀ (rV : List Pt) (epsilon : ℚ),
        (rV.map (quantize (resOf rV epsilon))).Nodup →
          filterVs rV epsilon = rV) ∧
      ∀ (p : Pt) (epsilon : ℚ) (k : ℕ), 1 ≤ k →
        filterVs (List.replicate k p) epsilon = [p] := by
  constructor
  · intro rV epsilon hnd
    have he : filterVs rV epsilon = filterLoop (resOf rV epsilon) [] rV := rfl
    rw [he]
    exact filterLoop_keeps_all _ rV [] (fun p _ => List.not_mem_nil _) hnd
  · intro p epsilon k hk
    obtain ⟨n, rfl⟩ : ∃ n, k = n + 1 := ⟨k - 1, by omega⟩
    have he : filterVs (List.replicate (n + 1) p) epsilon =
        filterLoop (resOf (List.replicate (n + 1) p) epsilon) []
          (List.replicate (n + 1) p) := rfl
    rw [he, List.replicate_succ]
    simp only [filterLoop, List.any_nil, Bool.false_eq_true, if_false]
    rw [filterLoop_drop_all _ _ _ ?_]
    intro p2 hp2
    rw [List.eq_of_mem_replicate hp2]
    exact List.mem_singleton.mpr rfl

/-- Witness for C9: a singleton cloud passes through unchanged, and two
exact copies collapse to one. -/
theorem filterVs_dedup_properties_witness :
    (([(⟨5, 6, 7⟩ : Pt)].map (quantize (resOf [⟨5, 6, 7⟩] 1))).Nodup ∧
        filterVs [(⟨5, 6, 7⟩ : Pt)] 1 = [⟨5, 6, 7⟩]) ∧
      1 ≤ 2 ∧ filterVs (List.replicate 2 (⟨1, 1, 1⟩ : Pt)) 1 = [⟨1, 1, 1⟩] :=
  ⟨⟨by simp, filterVs_dedup_properties.1 _ _ (by simp)⟩,
    by decide, filterVs_dedup_properties.2 _ _ 2 (by decide)⟩

/-- Reading an index list three entries past a three-element prefix. -/
theorem getD_cons3 (n a b c : ℕ) (t : List ℕ) :
    (a :: b :: c :: t).getD (n + 3) 0 = t.getD n 0 := by
  have h1 : n + 3 = ((n + 1) + 1) + 1 := by omega
  rw [h1, List.getD_cons_succ, List.getD_cons_succ, List.getD_cons_succ]

/-- The source's facet loop — `hNum = idBuffer.size() / 3` iterations over
`idBuffer[3i]`, `idBuffer[3i+1]`, `idBuffer[3i+2]` — enumerates exactly the
triples of the index buffer in emitted order. -/
theorem range_loop_eq_facetVertices (A : List Pt) (l : List ℕ) :
    (List.range (l.length / 3)).map (fun i =>
      let point := A.getD (l.getD (3 * i + 1) 0) Pt.zero
      let edge0 := point.sub (A.getD (l.getD (3 * i) 0) Pt.zero)
      let edge1 := (A.getD (l.getD (3 * i + 2) 0) Pt.zero).sub point
      let normal := edge0.cross edge1
      normal.divs (normal.dot point)) = facetVertices A l := by
  have main : ∀ (n : ℕ) (l : List ℕ), l.length ≤ n →
      (List.range (l.length / 3)).map (fun i =>
        let point := A.getD (l.getD (3 * i + 1) 0) Pt.zero
        let edge0 := point.sub (A.getD (l.getD (3 * i) 0) Pt.zero)
        let edge1 := (A.getD (l.getD (3 * i + 2) 0) Pt.zero).sub point
        let normal := edge0.cross edge1
        normal.divs (normal.dot point)) = facetVertices A l := by
    intro n
    induction n with
    | zero =>
      intro l hl
      rw [List.eq_nil_of_length_eq_zero (Nat.le_zero.mp hl)]
      rfl
    | succ n ih =>
      intro l hl
      match l with
      | [] => rfl
      | [i] => simp [facetVertices, chunk3Map]
      | [i, j] => simp [facetVertices, chunk3Map]
      | i :: j :: k :: rest =>
        have hlen : (i :: j :: k :: rest).length / 3 = rest.length / 3 + 1 := by
          simp only [List.length_cons]
          omega
        have hstep : facetVertices A (i :: j :: k :: rest) =
            primalVertex (A.getD i Pt.zero) (A.getD j Pt.zero)
              (A.getD k Pt.zero) :: facetVertices A rest := rfl
        rw [hstep, hlen, List.range_succ_eq_map, List.map_cons, List.map_map]
        have hrest : rest.length ≤ n := by
          simp only [List.length_cons] at hl
          omega
        refine congrArg₂ List.cons rfl ?_
        rw [← ih rest hrest]
        apply List.map_congr_left
        intro m _
        simp only [Function.comp_apply, Nat.succ_eq_add_one]
        have e0 : (i :: j :: k :: rest).getD (3 * (m + 1)) 0 =
            rest.getD (3 * m) 0 := by
          rw [show 3 * (m + 1) = 3 * m + 3 by ring, getD_cons3]
        have e1 : (i :: j :: k :: rest).getD (3 * (m + 1) + 1) 0 =
            rest.getD (3 * m + 1) 0 := by
          rw [show 3 * (m + 1) + 1 = (3 * m + 1) + 3 by ring, getD_cons3]
        have e2 : (i :: j :: k :: rest).getD (3 * (m + 1) + 2) 0 =
            rest.getD (3 * m + 2) 0 := by
          rw [show 3 * (m + 1) + 2 = (3 * m + 2) + 3 by ring, getD_cons3]
        rw [e0, e1, e2]
  exact main l.length l le_rfl

/-- C1: `enumerateVs` with a supplied interior point decomposes exactly as
the spec's polar-duality pipeline: dual points `nᵢ / (-dᵢ - nᵢ·inner)`, one
primal vertex `((p1-p0) × (p2-p1)) / (((p1-p0) × (p2-p1)) · p1)` per emitted
hull facet, `filterVs` deduplication at `epsilon`, and translation back by
adding `inner` to every point. -/
theorem enumerateVs_duality_decomposition (hull : HullOracle)
    (defaultEps : ℚ) (hPoly : List HalfSpace) (inner : Pt) (epsilon : ℚ) :
    enumerateVs hull defaultEps hPoly inner epsilon =
      (filterVs
        (facetVertices (dualCloud hPoly inner)
          (hull (dualCloud hPoly inner) (min epsilon defaultEps)))
        epsilon).map (fun p => p.add inner) := by
  have hA : (hPoly.map (fun h =>
      let bi := -h.d - (h.a * inner.x + h.b * inner.y + h.c * inner.z)
      Pt.divs ⟨h.a, h.b, h.c⟩ bi)) = dualCloud hPoly inner := rfl
  simp only [enumerateVs]
  rw [hA, range_loop_eq_facetVertices]
